import Mathlib

/-!
Verification of the drag-and-drop project manager (`src/app.ts`).

The development shallowly embeds the program's core:
* the `Project` entity and its `ProjectStatus` (app.ts lines 123-133),
* the `validateInput` predicate over `Validatable` constraint sets
  (app.ts lines 94-121),
* the `ProjectState` store: `addProject`, `moveProject`, `updateListeners`
  (app.ts lines 30-75), with listener callbacks abstracted to listener
  identifiers and each notification recorded as an explicit trace of
  per-listener deliveries,
* the form-submission path `ProjectInput.getUserInput` / `submitHandler`
  (app.ts lines 293-335),
* a reference-level memory model (`RefModel`) in which arrays and project
  objects live on a heap, faithful to JavaScript aliasing, used for the
  snapshot-isolation claims about `this.projects.slice()`.

JavaScript specifics and how they are modelled:
* `Math.random().toString()` inside `addProject` is an environment-supplied
  string: the embedding takes the generated id as an explicit argument.
* JS numbers are modelled as `Int` (the program only ever validates the
  integral people count against integral bounds).
* `String.prototype.trim` is modelled by Lean's `String.trim`, and
  `.toString()` on a number by decimal rendering via `toString : Int → String`.
-/

/-- Status enum of app.ts line 123: `enum ProjectStatus { Active, Finished }`. -/
inductive ProjectStatus where
  | Active
  | Finished
deriving Repr, DecidableEq

/-- The `Project` class of app.ts lines 125-133: id, title, description,
people count and status, all public fields. -/
structure Project where
  id : String
  title : String
  description : String
  people : Int
  status : ProjectStatus
deriving Repr, DecidableEq

/-- A JavaScript value of type `string | number`, the type of
`Validatable.value` (app.ts line 95). -/
inductive JsValue where
  | str (s : String)
  | num (n : Int)
deriving Repr, DecidableEq

/-- JavaScript `value.toString()` for a `string | number` value: identity on
strings, decimal rendering on numbers. -/
def jsToString : JsValue → String
  | JsValue.str s => s
  | JsValue.num n => toString n

/-- JavaScript `String.prototype.trim`: drop leading and trailing whitespace.
Defined directly on the character list (equivalent to Lean's `String.trim`,
but fully reducible by the kernel). -/
def jsTrim (s : String) : String :=
  ⟨((s.data.dropWhile Char.isWhitespace).reverse.dropWhile Char.isWhitespace).reverse⟩

/-- The `Validatable` interface of app.ts lines 94-101; optional fields are
`Option`s, absent (`undefined`) being `none`. -/
structure Validatable where
  value : JsValue
  required : Option Bool := none
  minLength : Option Int := none
  maxLength : Option Int := none
  min : Option Int := none
  max : Option Int := none
deriving Repr, DecidableEq

/-- `validateInput` of app.ts lines 103-121, translated clause by clause.
`if (validatableInput.required)` is a truthiness test, so it fires exactly
when the field is present and `true`; `x != null` tests presence; the
`typeof` tests dispatch on the value's variant; all comparisons are the
source's strict `>` / `<`. -/
def validateInput (validatableInput : Validatable) : Bool :=
  let isValid := true
  let isValid :=
    if validatableInput.required = some true then
      isValid && ((jsTrim (jsToString validatableInput.value)).length != 0)
    else isValid
  let isValid :=
    match validatableInput.minLength, validatableInput.value with
    | some minL, JsValue.str s => isValid && decide (minL < (s.length : Int))
    | _, _ => isValid
  let isValid :=
    match validatableInput.maxLength, validatableInput.value with
    | some maxL, JsValue.str s => isValid && decide ((s.length : Int) < maxL)
    | _, _ => isValid
  let isValid :=
    match validatableInput.min, validatableInput.value with
    | some lo, JsValue.num n => isValid && decide (lo < n)
    | _, _ => isValid
  let isValid :=
    match validatableInput.max, validatableInput.value with
    | some hi, JsValue.num n => isValid && decide (n < hi)
    | _, _ => isValid
  isValid

/-- The validation contract as the specification words it (§4.2 of the spec):
every present and applicable constraint holds, combined by logical AND;
`minLength`/`maxLength` apply only to string values, `min`/`max` only to
numeric values, an absent constraint is unconstrained, and all four bound
comparisons are strict. Written from the spec, to be compared with
`validateInput`, which is written from the source. -/
def specValid (v : Validatable) : Prop :=
  (v.required = some true → (jsTrim (jsToString v.value)).length ≠ 0) ∧
  (∀ m s, v.minLength = some m → v.value = JsValue.str s → m < (s.length : Int)) ∧
  (∀ m s, v.maxLength = some m → v.value = JsValue.str s → (s.length : Int) < m) ∧
  (∀ m n, v.min = some m → v.value = JsValue.num n → m < n) ∧
  (∀ m n, v.max = some m → v.value = JsValue.num n → n < m)

/-- A delivery to one listener: the listener's identifier paired with the
snapshot array it received. Listener callbacks are abstracted to identifiers;
`updateListeners` produces the ordered trace of deliveries instead of running
arbitrary callback code. -/
abbrev Delivery := Nat × List Project

/-- One invocation of `updateListeners` (app.ts lines 69-74): its ordered
list of per-listener deliveries. -/
abbrev NotifyEvent := List Delivery

/-- State of the `ProjectState` singleton (app.ts lines 30-75): the private
`projects` array and the inherited `listeners` array (subscription order). -/
structure StoreState where
  projects : List Project
  listeners : List Nat
deriving Repr, DecidableEq

/-- `updateListeners` (app.ts lines 69-74): the for-loop over `this.listeners`
in subscription order, each iteration calling the listener with
`this.projects.slice()` (a copy of the array). In this value-level model the
copy has the same list value; the `RefModel` below captures the fresh-array
aspect of `slice`. -/
def updateListenersTrace : List Nat → List Project → NotifyEvent
  | [], _ => []
  | l :: rest, projects => (l, projects) :: updateListenersTrace rest projects

/-- `addProject` (app.ts lines 48-58). The source computes
`Math.random().toString()` for the id; that environment-supplied string is the
`freshId` argument here. A `Project` with status `Active` is built, pushed
onto `this.projects`, and `updateListeners` runs once; the returned list of
`NotifyEvent`s records each `updateListeners` invocation. -/
def addProject (s : StoreState) (freshId projectName projectDescription : String)
    (numPeople : Int) : StoreState × List NotifyEvent :=
  let newProject : Project :=
    { id := freshId, title := projectName, description := projectDescription,
      people := numPeople, status := ProjectStatus.Active }
  let s' : StoreState := { s with projects := s.projects ++ [newProject] }
  (s', [updateListenersTrace s'.listeners s'.projects])

/-- The in-place mutation `project.status = newStatus` performed by
`moveProject` on the object returned by `this.projects.find(...)`: the first
element of the list whose id matches has its status replaced. -/
def setStatusFirst : List Project → String → ProjectStatus → List Project
  | [], _, _ => []
  | p :: rest, projectId, newStatus =>
    if p.id = projectId then { p with status := newStatus } :: rest
    else p :: setStatusFirst rest projectId newStatus

/-- `moveProject` (app.ts lines 60-66): `this.projects.find(p => p.id ===
projectId)`; if found and its status differs from `newStatus`, mutate that
project's status in place and call `updateListeners`, otherwise do nothing.
The second component records the `updateListeners` invocations (empty when
none occurred). -/
def moveProject (s : StoreState) (projectId : String) (newStatus : ProjectStatus) :
    StoreState × List NotifyEvent :=
  match s.projects.find? (fun p => p.id == projectId) with
  | some project =>
    if project.status ≠ newStatus then
      let s' : StoreState := { s with projects := setStatusFirst s.projects projectId newStatus }
      (s', [updateListenersTrace s'.listeners s'.projects])
    else (s, [])
  | none => (s, [])

/-- `getUserInput` (app.ts lines 305-335): builds the three `Validatable`
records exactly as the source does and returns the tuple, or `none` for the
alert-and-return path. The source's guard is
`!validateInput(title) && !validateInput(description) && !validateInput(people)`,
reproduced verbatim (with `&&`, as written). -/
def getUserInput (title description : String) (people : Int) :
    Option (String × String × Int) :=
  let titleValidatable : Validatable :=
    { value := JsValue.str title, required := some true }
  let descriptionValidatable : Validatable :=
    { value := JsValue.str description, required := some true, minLength := some 5 }
  let peopleValidatable : Validatable :=
    { value := JsValue.num people, required := some true, min := some 1, max := some 5 }
  if !validateInput titleValidatable &&
     !validateInput descriptionValidatable &&
     !validateInput peopleValidatable then
    none
  else
    some (title, description, people)

/-- `submitHandler` (app.ts lines 293-302): when `getUserInput` returns a
tuple, call `projectState.addProject` with it; otherwise do nothing. -/
def submitHandler (s : StoreState) (freshId : String) (title description : String)
    (people : Int) : StoreState :=
  match getUserInput title description people with
  | some (t, d, p) => (addProject s freshId t d p).1
  | none => s

/-- Operations a client can perform on the store, for stating properties of
whole operation sequences. `add` carries the environment-supplied id. -/
inductive Op where
  | add (freshId projectName projectDescription : String) (numPeople : Int)
  | move (projectId : String) (newStatus : ProjectStatus)
deriving Repr, DecidableEq

/-- Whether an operation is a `moveProject` call. -/
def Op.isMove : Op → Bool
  | Op.move _ _ => true
  | _ => false

/-- Apply one operation to the store. -/
def applyOp (s : StoreState) : Op → StoreState
  | Op.add freshId n d np => (addProject s freshId n d np).1
  | Op.move pid st => (moveProject s pid st).1

/-- Run a sequence of operations on the store, left to right. -/
def runOps (s : StoreState) : List Op → StoreState
  | [] => s
  | op :: ops => runOps (applyOp s op) ops

/-- The environment-supplied fresh ids consumed by the `add` operations of a
sequence, in order. -/
def freshIds : List Op → List String
  | [] => []
  | Op.add freshId _ _ _ :: ops => freshId :: freshIds ops
  | Op.move _ _ :: ops => freshIds ops

namespace RefModel

/-!
Reference-level model of the store, for the claims about
`this.projects.slice()` (app.ts line 72). JavaScript arrays and objects are
heap references: `slice` allocates a NEW array object holding the SAME project
references. Both kinds of object live in an explicit memory; a reference is an
index into the corresponding heap. Arrays of projects hold references into the
project heap.
-/

/-- The memory: project objects and array objects, addressed by index. -/
structure Mem where
  projs : List Project
  arrs : List (List Nat)
deriving Repr, DecidableEq

/-- Read an array object (out-of-range reads give the empty array; the
program never produces them). -/
def Mem.getArr (m : Mem) (r : Nat) : List Nat := (m.arrs[r]?).getD []

/-- Mutate an array object in place (what a subscriber does when it pushes
onto, pops from or reorders the array it received). -/
def Mem.setArr (m : Mem) (r : Nat) (v : List Nat) : Mem :=
  { m with arrs := m.arrs.set r v }

/-- Read a project object. -/
def Mem.getProj (m : Mem) (r : Nat) : Option Project := m.projs[r]?

/-- Mutate a project object in place (what a subscriber does when it assigns
to a field of a project it can reach through its snapshot). -/
def Mem.setProj (m : Mem) (r : Nat) (p : Project) : Mem :=
  { m with projs := m.projs.set r p }

/-- Allocate a fresh array object; its reference is the next free index. -/
def Mem.allocArr (m : Mem) (v : List Nat) : Mem × Nat :=
  ({ m with arrs := m.arrs ++ [v] }, m.arrs.length)

/-- The store at reference level: the memory, a reference to the canonical
`projects` array object, and the listeners in subscription order. -/
structure Store where
  mem : Mem
  projectsRef : Nat
  listeners : List Nat
deriving Repr, DecidableEq

/-- The loop body sequence of `updateListeners` (app.ts lines 69-74) at
reference level: for each listener in order, `this.projects.slice()`
allocates a fresh array object whose contents are the canonical array's
current contents (the same project references), and that fresh reference is
delivered to the listener. Returns the final memory and the ordered trace of
(listener, delivered array reference) pairs. -/
def deliverAll : List Nat → Mem → Nat → Mem × List (Nat × Nat)
  | [], m, _ => (m, [])
  | l :: rest, m, projectsRef =>
    let alloc := m.allocArr (m.getArr projectsRef)
    let next := deliverAll rest alloc.1 projectsRef
    (next.1, (l, alloc.2) :: next.2)

/-- `updateListeners` at reference level. -/
def updateListeners (s : Store) : Store × List (Nat × Nat) :=
  let d := deliverAll s.listeners s.mem s.projectsRef
  ({ s with mem := d.1 }, d.2)

/-- The store's canonical project list as dereferenced values: what the
store's own `projects` array denotes. -/
def Store.view (s : Store) : List (Option Project) :=
  (s.mem.getArr s.projectsRef).map s.mem.getProj

end RefModel

/-! ## Helper lemmas -/

theorem updateListenersTrace_eq (ls : List Nat) (ps : List Project) :
    updateListenersTrace ls ps = ls.map (fun l => (l, ps)) := by
  induction ls with
  | nil => rfl
  | cons l rest ih => simp [updateListenersTrace, ih]

theorem length_setStatusFirst (l : List Project) (pid : String) (st : ProjectStatus) :
    (setStatusFirst l pid st).length = l.length := by
  induction l with
  | nil => rfl
  | cons p rest ih => by_cases h : p.id = pid <;> simp [setStatusFirst, h, ih]

theorem setStatusFirst_map_id (l : List Project) (pid : String) (st : ProjectStatus) :
    (setStatusFirst l pid st).map Project.id = l.map Project.id := by
  induction l with
  | nil => rfl
  | cons p rest ih => by_cases h : p.id = pid <;> simp [setStatusFirst, h, ih]

theorem setStatusFirst_fields (l : List Project) (pid : String) (st : ProjectStatus)
    (k : Nat) (p : Project) (hk : l[k]? = some p) :
    ∃ q, (setStatusFirst l pid st)[k]? = some q ∧ q.id = p.id ∧ q.title = p.title ∧
      q.description = p.description ∧ q.people = p.people := by
  induction l generalizing k with
  | nil => simp at hk
  | cons a rest ih =>
    by_cases h : a.id = pid
    · cases k with
      | zero =>
        rw [List.getElem?_cons_zero] at hk
        injection hk with hk; subst hk
        exact ⟨{ a with status := st }, by simp [setStatusFirst, h], rfl, rfl, rfl, rfl⟩
      | succ k =>
        rw [List.getElem?_cons_succ] at hk
        exact ⟨p, by simp [setStatusFirst, h, hk], rfl, rfl, rfl, rfl⟩
    · cases k with
      | zero =>
        rw [List.getElem?_cons_zero] at hk
        injection hk with hk; subst hk
        exact ⟨a, by simp [setStatusFirst, h], rfl, rfl, rfl, rfl⟩
      | succ k =>
        rw [List.getElem?_cons_succ] at hk
        obtain ⟨q, hq, h1, h2, h3, h4⟩ := ih k hk
        exact ⟨q, by simp [setStatusFirst, h, hq], h1, h2, h3, h4⟩

theorem setStatusFirst_eq_or_set (l : List Project) (pid : String) (st : ProjectStatus) :
    setStatusFirst l pid st = l ∨
      ∃ j p, l[j]? = some p ∧ p.id = pid ∧
        setStatusFirst l pid st = l.set j { p with status := st } := by
  induction l with
  | nil => exact Or.inl rfl
  | cons a rest ih =>
    by_cases h : a.id = pid
    · exact Or.inr ⟨0, a, List.getElem?_cons_zero, h, by simp [setStatusFirst, h]⟩
    · rcases ih with heq | ⟨j, p, hj, hpid, hset⟩
      · exact Or.inl (by simp [setStatusFirst, h, heq])
      · exact Or.inr ⟨j + 1, p, by simpa using hj, hpid, by simp [setStatusFirst, h, hset]⟩

theorem setStatusFirst_getElem?_nodup (l : List Project) (pid : String) (st : ProjectStatus)
    (hnd : (l.map Project.id).Nodup) (k : Nat) (p : Project) (hk : l[k]? = some p) :
    (setStatusFirst l pid st)[k]? =
      some (if p.id = pid then { p with status := st } else p) := by
  induction l generalizing k with
  | nil => simp at hk
  | cons a rest ih =>
    rw [List.map_cons, List.nodup_cons] at hnd
    by_cases h : a.id = pid
    · cases k with
      | zero =>
        rw [List.getElem?_cons_zero] at hk
        injection hk with hk; subst hk
        simp [setStatusFirst, h]
      | succ k =>
        rw [List.getElem?_cons_succ] at hk
        have hpmem : p ∈ rest := List.getElem?_mem hk
        have hpne : ¬ p.id = pid := by
          intro hc
          exact hnd.1 (by rw [h, ← hc]; exact List.mem_map_of_mem Project.id hpmem)
        simp [setStatusFirst, h, hpne, hk]
    · cases k with
      | zero =>
        rw [List.getElem?_cons_zero] at hk
        injection hk with hk; subst hk
        simp [setStatusFirst, h]
      | succ k =>
        rw [List.getElem?_cons_succ] at hk
        simp [setStatusFirst, h, ih hnd.2 k hk]

theorem find?_id_eq_none (l : List Project) (pid : String) :
    l.find? (fun p => p.id == pid) = none ↔ ∀ p ∈ l, p.id ≠ pid := by
  rw [List.find?_eq_none]
  simp

theorem find?_id_spec (l : List Project) (pid : String) (proj : Project)
    (h : l.find? (fun p => p.id == pid) = some proj) : proj ∈ l ∧ proj.id = pid :=
  ⟨List.mem_of_find?_eq_some h, by simpa using List.find?_some h⟩

theorem find?_id_unique (l : List Project) (pid : String) (proj : Project)
    (hnd : (l.map Project.id).Nodup)
    (hf : l.find? (fun p => p.id == pid) = some proj) :
    ∀ p ∈ l, p.id = pid → p = proj := by
  intro p hp hpid
  obtain ⟨hmem, hid⟩ := find?_id_spec l pid proj hf
  exact List.inj_on_of_nodup_map hnd hp hmem (by rw [hpid, hid])

theorem moveProject_eq_of_none (s : StoreState) (pid : String) (st : ProjectStatus)
    (hf : s.projects.find? (fun p => p.id == pid) = none) :
    moveProject s pid st = (s, []) := by
  simp [moveProject, hf]

theorem moveProject_eq_of_same (s : StoreState) (pid : String) (st : ProjectStatus)
    (proj : Project) (hf : s.projects.find? (fun p => p.id == pid) = some proj)
    (hst : proj.status = st) :
    moveProject s pid st = (s, []) := by
  simp [moveProject, hf, hst]

theorem moveProject_eq_of_diff (s : StoreState) (pid : String) (st : ProjectStatus)
    (proj : Project) (hf : s.projects.find? (fun p => p.id == pid) = some proj)
    (hst : proj.status ≠ st) :
    moveProject s pid st =
      ({ s with projects := setStatusFirst s.projects pid st },
       [updateListenersTrace s.listeners (setStatusFirst s.projects pid st)]) := by
  simp [moveProject, hf, hst]

theorem moveProject_projects_map_id (s : StoreState) (pid : String) (st : ProjectStatus) :
    (moveProject s pid st).1.projects.map Project.id = s.projects.map Project.id := by
  cases hf : s.projects.find? (fun p => p.id == pid) with
  | none => rw [moveProject_eq_of_none s pid st hf]
  | some proj =>
    by_cases hst : proj.status = st
    · rw [moveProject_eq_of_same s pid st proj hf hst]
    · rw [moveProject_eq_of_diff s pid st proj hf hst]
      exact setStatusFirst_map_id s.projects pid st

theorem applyOp_map_id (s : StoreState) (op : Op) :
    (applyOp s op).projects.map Project.id = s.projects.map Project.id ++ freshIds [op] := by
  cases op with
  | add freshId n d np => simp [applyOp, addProject, freshIds]
  | move pid st => simp [applyOp, freshIds, moveProject_projects_map_id]

theorem runOps_map_id (s : StoreState) (ops : List Op) :
    (runOps s ops).projects.map Project.id = s.projects.map Project.id ++ freshIds ops := by
  induction ops generalizing s with
  | nil => simp [runOps, freshIds]
  | cons op ops ih =>
    rw [runOps, ih, applyOp_map_id]
    cases op <;> simp [freshIds]

theorem applyOp_getElem? (s : StoreState) (op : Op) (k : Nat) (p : Project)
    (hk : s.projects[k]? = some p) :
    ∃ q, (applyOp s op).projects[k]? = some q ∧ q.id = p.id ∧ q.title = p.title ∧
      q.description = p.description ∧ q.people = p.people ∧
      (op.isMove = false → q = p) := by
  cases op with
  | add freshId n d np =>
    refine ⟨p, ?_, rfl, rfl, rfl, rfl, fun _ => rfl⟩
    have hlt : k < s.projects.length := (List.getElem?_eq_some.mp hk).fst
    simp [applyOp, addProject, List.getElem?_append_left hlt, hk]
  | move pid st =>
    cases hf : s.projects.find? (fun q => q.id == pid) with
    | none =>
      rw [applyOp, moveProject_eq_of_none s pid st hf]
      exact ⟨p, hk, rfl, rfl, rfl, rfl, by simp [Op.isMove]⟩
    | some proj =>
      by_cases hst : proj.status = st
      · rw [applyOp, moveProject_eq_of_same s pid st proj hf hst]
        exact ⟨p, hk, rfl, rfl, rfl, rfl, by simp [Op.isMove]⟩
      · rw [applyOp, moveProject_eq_of_diff s pid st proj hf hst]
        obtain ⟨q, hq, h1, h2, h3, h4⟩ := setStatusFirst_fields s.projects pid st k p hk
        exact ⟨q, hq, h1, h2, h3, h4, by simp [Op.isMove]⟩

namespace RefModel

theorem setArr_projs (m : Mem) (r : Nat) (v : List Nat) : (m.setArr r v).projs = m.projs := rfl

theorem setArr_getArr_ne (m : Mem) (r r' : Nat) (v : List Nat) (h : r ≠ r') :
    (m.setArr r v).getArr r' = m.getArr r' := by
  simp [Mem.setArr, Mem.getArr, List.getElem?_set_ne h]

theorem deliverAll_projs (ls : List Nat) (m : Mem) (pr : Nat) :
    (deliverAll ls m pr).1.projs = m.projs := by
  induction ls generalizing m with
  | nil => rfl
  | cons l rest ih => simpa [deliverAll, Mem.allocArr] using ih _

theorem deliverAll_arrs_length (ls : List Nat) (m : Mem) (pr : Nat) :
    (deliverAll ls m pr).1.arrs.length = m.arrs.length + ls.length := by
  induction ls generalizing m with
  | nil => rfl
  | cons l rest ih =>
    simp only [deliverAll]
    rw [ih]
    simp [Mem.allocArr]
    omega

theorem deliverAll_getArr_lt (ls : List Nat) (m : Mem) (pr r : Nat) (h : r < m.arrs.length) :
    (deliverAll ls m pr).1.getArr r = m.getArr r := by
  induction ls generalizing m with
  | nil => rfl
  | cons l rest ih =>
    simp only [deliverAll]
    rw [ih]
    · simp [Mem.allocArr, Mem.getArr, List.getElem?_append_left h]
    · simp [Mem.allocArr]
      omega

theorem deliverAll_trace (ls : List Nat) (m : Mem) (pr : Nat) :
    (deliverAll ls m pr).2 = ls.zip (List.range' m.arrs.length ls.length) := by
  induction ls generalizing m with
  | nil => rfl
  | cons l rest ih =>
    simp only [deliverAll, List.length_cons, List.range'_succ, List.zip_cons_cons]
    rw [ih]
    simp [Mem.allocArr]

theorem deliverAll_snapshot_contents (ls : List Nat) (m : Mem) (pr : Nat)
    (hpr : pr < m.arrs.length) :
    ∀ x ∈ (deliverAll ls m pr).2, (deliverAll ls m pr).1.getArr x.2 = m.getArr pr := by
  induction ls generalizing m with
  | nil => simp [deliverAll]
  | cons l rest ih =>
    intro x hx
    simp only [deliverAll, List.mem_cons] at hx ⊢
    rcases hx with hx | hx
    · subst hx
      rw [deliverAll_getArr_lt rest _ pr (m.allocArr (m.getArr pr)).2
        (by simp [Mem.allocArr])]
      simp [Mem.allocArr, Mem.getArr]
    · have hpr' : pr < (m.allocArr (m.getArr pr)).1.arrs.length := by
        simp [Mem.allocArr]
        omega
      rw [ih (m.allocArr (m.getArr pr)).1 hpr' x hx]
      simp [Mem.allocArr, Mem.getArr, List.getElem?_append_left hpr]

end RefModel

theorem runOps_getElem? (s : StoreState) (ops : List Op) (k : Nat) (p : Project)
    (hk : s.projects[k]? = some p) :
    ∃ q, (runOps s ops).projects[k]? = some q ∧ q.id = p.id ∧ q.title = p.title ∧
      q.description = p.description ∧ q.people = p.people ∧
      ((∀ op ∈ ops, op.isMove = false) → q.status = p.status) := by
  induction ops generalizing s p with
  | nil => exact ⟨p, hk, rfl, rfl, rfl, rfl, fun _ => rfl⟩
  | cons op ops ih =>
    obtain ⟨q₁, hq₁, ha, hb, hc, hd, hmv⟩ := applyOp_getElem? s op k p hk
    obtain ⟨q, hq, h1, h2, h3, h4, hst⟩ := ih (applyOp s op) q₁ hq₁
    refine ⟨q, by rw [runOps]; exact hq, by rw [h1, ha], by rw [h2, hb],
      by rw [h3, hc], by rw [h4, hd], ?_⟩
    intro hnone
    have hop : op.isMove = false := hnone op (List.mem_cons_self op ops)
    have : q₁ = p := hmv hop
    rw [hst fun o ho => hnone o (List.mem_cons_of_mem op ho), this]

/-! ## Claim theorems -/

/-- C1: the claim says a single failing validation abandons the creation, the
user is alerted and the store is unchanged. The source's guard
(app.ts lines 326-329) combines the three checks with `&&` instead of `||`,
so the reject path is taken only when ALL THREE validations fail. Evaluated
at the failing input (empty title, valid description, valid people count):
the title validation fails, yet `getUserInput` returns the tuple and
`submitHandler` creates a project with an empty title. -/
theorem submitHandler_creates_despite_invalid_title :
    validateInput { value := JsValue.str "", required := some true } = false ∧
    getUserInput "" "a valid description" 3 = some ("", "a valid description", 3) ∧
    (submitHandler { projects := [], listeners := [] } "id0" "" "a valid description" 3).projects =
      [{ id := "id0", title := "", description := "a valid description", people := 3,
         status := ProjectStatus.Active }] :=
  ⟨by decide, by decide, by decide⟩

/-- C2, counterexample: id uniqueness fails when the environment
(`Math.random().toString()`, app.ts line 50) supplies the same string twice:
after two `addProject` calls that both draw "0.5", the store holds two
projects with equal ids. -/
theorem addProject_duplicate_id_on_repeated_random :
    ((runOps { projects := [], listeners := [] }
        [Op.add "0.5" "p1" "d1" 1, Op.add "0.5" "p2" "d2" 2]).projects.map Project.id =
      ["0.5", "0.5"]) ∧
    ¬ ((runOps { projects := [], listeners := [] }
        [Op.add "0.5" "p1" "d1" 1, Op.add "0.5" "p2" "d2" 2]).projects.map Project.id).Nodup :=
  ⟨by decide, by decide⟩

/-- C2, amended: provided the environment-supplied fresh ids of the sequence
are pairwise distinct and distinct from the ids already in the store, every
project in the store has an id distinct from every other project's id, for
every sequence of store operations. -/
theorem store_ids_nodup_of_fresh_ids_nodup (s : StoreState) (ops : List Op)
    (h : (s.projects.map Project.id ++ freshIds ops).Nodup) :
    ((runOps s ops).projects.map Project.id).Nodup := by
  rw [runOps_map_id]
  exact h

/-- C2, witness: the amended theorem applied to a concrete run with two
distinct fresh ids. -/
theorem store_ids_nodup_witness :
    (((StoreState.mk [] []).projects.map Project.id ++
        freshIds [Op.add "a" "p1" "d1" 1, Op.add "b" "p2" "d2" 2]).Nodup) ∧
    ((runOps (StoreState.mk [] [])
        [Op.add "a" "p1" "d1" 1, Op.add "b" "p2" "d2" 2]).projects.map Project.id).Nodup :=
  ⟨by decide, store_ids_nodup_of_fresh_ids_nodup (StoreState.mk [] [])
    [Op.add "a" "p1" "d1" 1, Op.add "b" "p2" "d2" 2] (by decide)⟩

/-- C5: `validateInput` returns `true` exactly when every present and
applicable constraint holds (`specValid`, written from the spec's words):
constraints combine by logical AND, `minLength`/`maxLength` apply only to
string values, `min`/`max` only to numeric values, an absent constraint is
unconstrained, and all four bound comparisons are strict. -/
theorem validateInput_iff_specValid (v : Validatable) :
    validateInput v = true ↔ specValid v := by
  obtain ⟨val, req, minL, maxL, lo, hi⟩ := v
  simp only [validateInput, specValid]
  cases val <;> rcases req with _ | b <;> (try cases b) <;>
    cases minL <;> cases maxL <;> cases lo <;> cases hi <;>
    simp [Bool.and_eq_true, bne_iff_ne, decide_eq_true_eq, and_assoc, and_comm, and_left_comm]

/-- C5, witness: the equivalence at a concrete constraint set. -/
theorem validateInput_iff_specValid_witness :
    validateInput
        { value := JsValue.str "hello", required := some true, minLength := some 3 } = true ↔
    specValid { value := JsValue.str "hello", required := some true, minLength := some 3 } :=
  validateInput_iff_specValid
    { value := JsValue.str "hello", required := some true, minLength := some 3 }

/-- C7: `addProject` builds a project whose status is `Active`, appends it at
the end of the canonical list (existing projects keep their positions), and
invokes the listener notification exactly once, delivering the new list to
every listener. -/
theorem addProject_appends_active_and_notifies_once (s : StoreState)
    (freshId projectName projectDescription : String) (numPeople : Int) :
    (addProject s freshId projectName projectDescription numPeople).1.projects =
      s.projects ++
        [{ id := freshId, title := projectName, description := projectDescription,
           people := numPeople, status := ProjectStatus.Active }] ∧
    (∀ k, k < s.projects.length →
      (addProject s freshId projectName projectDescription numPeople).1.projects[k]? =
        s.projects[k]?) ∧
    (addProject s freshId projectName projectDescription numPeople).1.listeners =
      s.listeners ∧
    (addProject s freshId projectName projectDescription numPeople).2 =
      [s.listeners.map (fun l =>
        (l, (addProject s freshId projectName projectDescription numPeople).1.projects))] := by
  refine ⟨rfl, ?_, rfl, ?_⟩
  · intro k hk
    simp [addProject, List.getElem?_append_left hk]
  · simp [addProject, updateListenersTrace_eq]

/-- C7, witness: one concrete `addProject` call. -/
theorem addProject_appends_witness :
    (addProject (StoreState.mk [] [3]) "a" "t" "d" 2).1.projects =
      [{ id := "a", title := "t", description := "d", people := 2,
         status := ProjectStatus.Active }] :=
  (addProject_appends_active_and_notifies_once (StoreState.mk [] [3]) "a" "t" "d" 2).1

/-- C9: the `required` constraint is satisfied exactly when the value
converted to a string and trimmed is non-empty; a whitespace-only string
fails it, while the number 0 (rendered "0") satisfies it. -/
theorem required_trim_semantics :
    (∀ v : JsValue, validateInput { value := v, required := some true } = true ↔
      (jsTrim (jsToString v)).length ≠ 0) ∧
    (∀ s : String, jsTrim s = "" →
      validateInput { value := JsValue.str s, required := some true } = false) ∧
    validateInput { value := JsValue.num 0, required := some true } = true := by
  refine ⟨?_, ?_, by decide⟩
  · intro v
    cases v <;> simp [validateInput, bne_iff_ne]
  · intro s hs
    simp [validateInput, jsToString, hs]

/-- C9, witness: a whitespace-only string fails `required`. -/
theorem required_trim_semantics_witness :
    jsTrim "   " = "" ∧
    validateInput { value := JsValue.str "   ", required := some true } = false :=
  ⟨by decide, required_trim_semantics.2.1 "   " (by decide)⟩

/-- C10: for every store state and every argument pair, `moveProject` keeps
the number of projects and the listener list, keeps every project's id,
title, description and people count at its position, and either leaves the
list entirely unchanged or updates exactly one position — one holding the
project whose id matches — replacing only its status with `newStatus`. -/
theorem moveProject_frame (s : StoreState) (projectId : String)
    (newStatus : ProjectStatus) :
    (moveProject s projectId newStatus).1.projects.length = s.projects.length ∧
    (moveProject s projectId newStatus).1.listeners = s.listeners ∧
    (∀ (k : Nat) (p : Project), s.projects[k]? = some p →
      ∃ q, (moveProject s projectId newStatus).1.projects[k]? = some q ∧
        q.id = p.id ∧ q.title = p.title ∧ q.description = p.description ∧
        q.people = p.people) ∧
    ((moveProject s projectId newStatus).1.projects = s.projects ∨
      ∃ (j : Nat) (p : Project), s.projects[j]? = some p ∧ p.id = projectId ∧
        (moveProject s projectId newStatus).1.projects =
          s.projects.set j { p with status := newStatus }) := by
  cases hf : s.projects.find? (fun p => p.id == projectId) with
  | none =>
    rw [moveProject_eq_of_none s projectId newStatus hf]
    exact ⟨rfl, rfl, fun k p hk => ⟨p, hk, rfl, rfl, rfl, rfl⟩, Or.inl rfl⟩
  | some proj =>
    by_cases hst : proj.status = newStatus
    · rw [moveProject_eq_of_same s projectId newStatus proj hf hst]
      exact ⟨rfl, rfl, fun k p hk => ⟨p, hk, rfl, rfl, rfl, rfl⟩, Or.inl rfl⟩
    · rw [moveProject_eq_of_diff s projectId newStatus proj hf hst]
      exact ⟨length_setStatusFirst s.projects projectId newStatus, rfl,
        fun k p hk => setStatusFirst_fields s.projects projectId newStatus k p hk,
        setStatusFirst_eq_or_set s.projects projectId newStatus⟩

/-- C10, witness: the frame property at a concrete move. -/
theorem moveProject_frame_witness :
    (moveProject
        (StoreState.mk [Project.mk "a" "t" "d" 1 ProjectStatus.Active] [])
        "a" ProjectStatus.Finished).1.projects.length = 1 :=
  (moveProject_frame
    (StoreState.mk [Project.mk "a" "t" "d" 1 ProjectStatus.Active] [])
    "a" ProjectStatus.Finished).1

/-- C4: under the store's unique-id invariant, `moveProject` notifies
subscribers if and only if a project with the given id exists and its current
status differs from `newStatus`; when it does not notify the operation leaves
the store untouched, every position of the list is the original project
unless it is the matching project with a differing status (which gets exactly
the new status, in place), and the notification, when it happens, is a single
`updateListeners` invocation delivering the post-mutation list to every
listener in subscription order. -/
theorem moveProject_notify_iff (s : StoreState) (projectId : String)
    (newStatus : ProjectStatus) (hnd : (s.projects.map Project.id).Nodup) :
    ((moveProject s projectId newStatus).2 ≠ [] ↔
      ∃ p ∈ s.projects, p.id = projectId ∧ p.status ≠ newStatus) ∧
    ((moveProject s projectId newStatus).2 = [] →
      moveProject s projectId newStatus = (s, [])) ∧
    (∀ (k : Nat) (p : Project), s.projects[k]? = some p →
      (moveProject s projectId newStatus).1.projects[k]? =
        some (if p.id = projectId ∧ p.status ≠ newStatus
          then { p with status := newStatus } else p)) ∧
    ((moveProject s projectId newStatus).2 ≠ [] →
      (moveProject s projectId newStatus).2 =
        [s.listeners.map (fun l => (l, (moveProject s projectId newStatus).1.projects))]) := by
  cases hf : s.projects.find? (fun p => p.id == projectId) with
  | none =>
    have hnone : ∀ p ∈ s.projects, p.id ≠ projectId := (find?_id_eq_none _ _).mp hf
    rw [moveProject_eq_of_none s projectId newStatus hf]
    refine ⟨?_, fun _ => rfl, ?_, fun hne => absurd rfl hne⟩
    · constructor
      · intro hne
        exact absurd rfl hne
      · rintro ⟨p, hp, hpid, -⟩
        exact absurd hpid (hnone p hp)
    · intro k p hk
      have hpid : ¬ p.id = projectId := hnone p (List.getElem?_mem hk)
      simp [hpid, hk]
  | some proj =>
    have huniq := find?_id_unique s.projects projectId proj hnd hf
    by_cases hst : proj.status = newStatus
    · rw [moveProject_eq_of_same s projectId newStatus proj hf hst]
      refine ⟨?_, fun _ => rfl, ?_, fun hne => absurd rfl hne⟩
      · constructor
        · intro hne
          exact absurd rfl hne
        · rintro ⟨p, hp, hpid, hpst⟩
          rw [huniq p hp hpid] at hpst
          exact absurd hst hpst
      · intro k p hk
        by_cases hpid : p.id = projectId
        · have hpproj : p = proj := huniq p (List.getElem?_mem hk) hpid
          have hps : p.status = newStatus := by rw [hpproj]; exact hst
          simp [hpid, hps, hk]
        · simp [hpid, hk]
    · obtain ⟨hmem, hid⟩ := find?_id_spec s.projects projectId proj hf
      rw [moveProject_eq_of_diff s projectId newStatus proj hf hst]
      refine ⟨?_, ?_, ?_, ?_⟩
      · constructor
        · intro _
          exact ⟨proj, hmem, hid, hst⟩
        · intro _
          simp
      · intro h
        simp at h
      · intro k p hk
        have := setStatusFirst_getElem?_nodup s.projects projectId newStatus hnd k p hk
        by_cases hpid : p.id = projectId
        · have hpproj : p = proj := huniq p (List.getElem?_mem hk) hpid
          have hps : p.status ≠ newStatus := by rw [hpproj]; exact hst
          simpa [hpid, hps] using this
        · simpa [hpid] using this
      · intro _
        simp [updateListenersTrace_eq]

/-- C4, witness: a concrete move with a status change. -/
theorem moveProject_notify_iff_witness :
    (((StoreState.mk [Project.mk "a" "t" "d" 1 ProjectStatus.Active] [7]).projects.map
        Project.id).Nodup) ∧
    ((moveProject (StoreState.mk [Project.mk "a" "t" "d" 1 ProjectStatus.Active] [7])
        "a" ProjectStatus.Finished).2 ≠ [] ↔
      ∃ p ∈ (StoreState.mk [Project.mk "a" "t" "d" 1 ProjectStatus.Active] [7]).projects,
        p.id = "a" ∧ p.status ≠ ProjectStatus.Finished) :=
  ⟨by decide,
   (moveProject_notify_iff (StoreState.mk [Project.mk "a" "t" "d" 1 ProjectStatus.Active] [7])
     "a" ProjectStatus.Finished (by decide)).1⟩

/-- C6: for subscribers A at position i and B at position j with i < j (A
registered before B), a `addProject` call, and any `moveProject` call that
notifies, produce exactly one notification event whose delivery list has A's
delivery at position i and B's at position j — so A's callback runs to
completion before B's in the synchronous loop — and both deliveries carry the
new project list (for `addProject`, one containing the new project). -/
theorem notification_order_and_snapshot (s : StoreState)
    (freshId projectName projectDescription : String) (numPeople : Int)
    (i j A B : Nat) (_hij : i < j)
    (hA : s.listeners[i]? = some A) (hB : s.listeners[j]? = some B) :
    (∃ e, (addProject s freshId projectName projectDescription numPeople).2 = [e] ∧
      e[i]? = some (A, (addProject s freshId projectName projectDescription numPeople).1.projects) ∧
      e[j]? = some (B, (addProject s freshId projectName projectDescription numPeople).1.projects) ∧
      { id := freshId, title := projectName, description := projectDescription,
        people := numPeople, status := ProjectStatus.Active } ∈
        (addProject s freshId projectName projectDescription numPeople).1.projects) ∧
    (∀ (projectId : String) (newStatus : ProjectStatus),
      (moveProject s projectId newStatus).2 ≠ [] →
      ∃ e, (moveProject s projectId newStatus).2 = [e] ∧
        e[i]? = some (A, (moveProject s projectId newStatus).1.projects) ∧
        e[j]? = some (B, (moveProject s projectId newStatus).1.projects)) := by
  constructor
  · refine ⟨updateListenersTrace s.listeners
      (addProject s freshId projectName projectDescription numPeople).1.projects, rfl, ?_, ?_, ?_⟩
    · rw [updateListenersTrace_eq, List.getElem?_map, hA]
      rfl
    · rw [updateListenersTrace_eq, List.getElem?_map, hB]
      rfl
    · simp [addProject]
  · intro projectId newStatus hne
    cases hf : s.projects.find? (fun p => p.id == projectId) with
    | none =>
      rw [moveProject_eq_of_none s projectId newStatus hf] at hne
      exact absurd rfl hne
    | some proj =>
      by_cases hst : proj.status = newStatus
      · rw [moveProject_eq_of_same s projectId newStatus proj hf hst] at hne
        exact absurd rfl hne
      · rw [moveProject_eq_of_diff s projectId newStatus proj hf hst]
        refine ⟨updateListenersTrace s.listeners
          (setStatusFirst s.projects projectId newStatus), rfl, ?_, ?_⟩
        · rw [updateListenersTrace_eq, List.getElem?_map, hA]
          rfl
        · rw [updateListenersTrace_eq, List.getElem?_map, hB]
          rfl

/-- C6, witness: two listeners, one concrete `addProject`. -/
theorem notification_order_and_snapshot_witness :
    (0 < 1) ∧
    ((StoreState.mk [] [5, 6]).listeners[0]? = some 5) ∧
    ((StoreState.mk [] [5, 6]).listeners[1]? = some 6) ∧
    (∃ e, (addProject (StoreState.mk [] [5, 6]) "a" "t" "d" 2).2 = [e] ∧
      e[0]? = some (5, (addProject (StoreState.mk [] [5, 6]) "a" "t" "d" 2).1.projects) ∧
      e[1]? = some (6, (addProject (StoreState.mk [] [5, 6]) "a" "t" "d" 2).1.projects) ∧
      { id := "a", title := "t", description := "d", people := 2,
        status := ProjectStatus.Active } ∈
        (addProject (StoreState.mk [] [5, 6]) "a" "t" "d" 2).1.projects) :=
  ⟨by decide, by decide, by decide,
   (notification_order_and_snapshot (StoreState.mk [] [5, 6]) "a" "t" "d" 2
     0 1 5 6 (by decide) (by decide) (by decide)).1⟩

/-- C8: across every sequence of store operations, the project found at a
position keeps its id, title, description and people count; its status is
also unchanged whenever the sequence contains no `move` operation — the
status is the only field that changes, and only through `moveProject`. -/
theorem project_fields_immutable (s : StoreState) (ops : List Op) (k : Nat) (p : Project)
    (hk : s.projects[k]? = some p) :
    ∃ q, (runOps s ops).projects[k]? = some q ∧ q.id = p.id ∧ q.title = p.title ∧
      q.description = p.description ∧ q.people = p.people ∧
      ((∀ op ∈ ops, op.isMove = false) → q.status = p.status) :=
  runOps_getElem? s ops k p hk

/-- C8, witness: a concrete run with a move and an add. -/
theorem project_fields_immutable_witness :
    ((StoreState.mk [Project.mk "a" "t" "d" 1 ProjectStatus.Active] []).projects[0]? =
      some (Project.mk "a" "t" "d" 1 ProjectStatus.Active)) ∧
    ∃ q, (runOps (StoreState.mk [Project.mk "a" "t" "d" 1 ProjectStatus.Active] [])
        [Op.move "a" ProjectStatus.Finished, Op.add "b" "x" "y" 2]).projects[0]? = some q ∧
      q.id = (Project.mk "a" "t" "d" 1 ProjectStatus.Active).id ∧
      q.title = (Project.mk "a" "t" "d" 1 ProjectStatus.Active).title ∧
      q.description = (Project.mk "a" "t" "d" 1 ProjectStatus.Active).description ∧
      q.people = (Project.mk "a" "t" "d" 1 ProjectStatus.Active).people ∧
      ((∀ op ∈ [Op.move "a" ProjectStatus.Finished, Op.add "b" "x" "y" 2],
          op.isMove = false) →
        q.status = (Project.mk "a" "t" "d" 1 ProjectStatus.Active).status) :=
  ⟨by decide,
   project_fields_immutable (StoreState.mk [Project.mk "a" "t" "d" 1 ProjectStatus.Active] [])
     [Op.move "a" ProjectStatus.Finished, Op.add "b" "x" "y" 2] 0
     (Project.mk "a" "t" "d" 1 ProjectStatus.Active) (by decide)⟩

namespace RefModel

/-- C3, counterexample: the copy handed to a subscriber is shallow
(`this.projects.slice()`), so the project objects in the snapshot are the
store's own objects. Concretely: a store holding one Active project notifies
its single subscriber, which receives fresh array object 1 whose sole entry
is project reference 0; mutating that project object (setting its status to
Finished) through the snapshot changes the store's own canonical list, whose
dereferenced view flips from Active to Finished. -/
theorem snapshot_project_mutation_reaches_store :
    ((updateListeners (Store.mk
        (Mem.mk [Project.mk "id1" "t" "d" 1 ProjectStatus.Active] [[0]]) 0 [0])).2 =
      [(0, 1)]) ∧
    ((updateListeners (Store.mk
        (Mem.mk [Project.mk "id1" "t" "d" 1 ProjectStatus.Active] [[0]]) 0 [0])).1.mem.getArr 1 =
      [0]) ∧
    (Store.view (updateListeners (Store.mk
        (Mem.mk [Project.mk "id1" "t" "d" 1 ProjectStatus.Active] [[0]]) 0 [0])).1 =
      [some (Project.mk "id1" "t" "d" 1 ProjectStatus.Active)]) ∧
    (Store.view (Store.mk
        ((updateListeners (Store.mk
            (Mem.mk [Project.mk "id1" "t" "d" 1 ProjectStatus.Active] [[0]]) 0 [0])).1.mem.setProj
          0 (Project.mk "id1" "t" "d" 1 ProjectStatus.Finished)) 0 [0]) =
      [some (Project.mk "id1" "t" "d" 1 ProjectStatus.Finished)]) :=
  ⟨by decide, by decide, by decide, by decide⟩

/-- C3, amended: each notification hands every subscriber a FRESH array
object — distinct from the store's canonical array and from every other
subscriber's snapshot — whose contents are the canonical array's entries
(the same project references: the copy is shallow). Mutating the array a
subscriber received therefore changes neither the store's canonical list
(its dereferenced view is untouched) nor any other subscriber's delivered
snapshot; mutating the shared project OBJECTS, however, is visible to the
store, as the counterexample shows. -/
theorem updateListeners_snapshot_array_isolation (s : Store)
    (hpr : s.projectsRef < s.mem.arrs.length) :
    ((updateListeners s).1.mem.getArr s.projectsRef = s.mem.getArr s.projectsRef) ∧
    ((updateListeners s).1.mem.projs = s.mem.projs) ∧
    ((updateListeners s).2.map Prod.fst = s.listeners) ∧
    (∀ x ∈ (updateListeners s).2, x.2 ≠ s.projectsRef) ∧
    (((updateListeners s).2.map Prod.snd).Nodup) ∧
    (∀ x ∈ (updateListeners s).2,
      (updateListeners s).1.mem.getArr x.2 = s.mem.getArr s.projectsRef) ∧
    (∀ x ∈ (updateListeners s).2, ∀ v : List Nat,
      Store.view (Store.mk ((updateListeners s).1.mem.setArr x.2 v)
          s.projectsRef s.listeners) =
        Store.view (updateListeners s).1 ∧
      ∀ y ∈ (updateListeners s).2, y.2 ≠ x.2 →
        ((updateListeners s).1.mem.setArr x.2 v).getArr y.2 =
          (updateListeners s).1.mem.getArr y.2) := by
  have htrace : (updateListeners s).2 =
      s.listeners.zip (List.range' s.mem.arrs.length s.listeners.length) :=
    deliverAll_trace s.listeners s.mem s.projectsRef
  have hge : ∀ x ∈ (updateListeners s).2, s.mem.arrs.length ≤ x.2 := by
    intro x hx
    rw [htrace] at hx
    have hmem := (List.of_mem_zip hx).2
    rw [List.mem_range'_1] at hmem
    exact hmem.1
  refine ⟨?_, ?_, ?_, ?_, ?_, ?_, ?_⟩
  · exact deliverAll_getArr_lt s.listeners s.mem s.projectsRef s.projectsRef hpr
  · exact deliverAll_projs s.listeners s.mem s.projectsRef
  · rw [htrace]
    exact List.map_fst_zip _ _ (by rw [List.length_range'])
  · intro x hx
    have := hge x hx
    omega
  · rw [htrace, List.map_snd_zip _ _ (by rw [List.length_range'])]
    exact List.nodup_range' _ _
  · exact deliverAll_snapshot_contents s.listeners s.mem s.projectsRef hpr
  · intro x hx v
    have hxne : x.2 ≠ s.projectsRef := by
      have := hge x hx
      omega
    constructor
    · show ((((updateListeners s).1.mem.setArr x.2 v).getArr s.projectsRef).map _) = _
      rw [setArr_getArr_ne _ _ _ _ hxne]
      rfl
    · intro y hy hne
      exact setArr_getArr_ne _ _ _ _ (Ne.symm hne)

/-- C3, witness: the amended theorem at a concrete two-subscriber store. -/
theorem updateListeners_snapshot_array_isolation_witness :
    ((Store.mk (Mem.mk [Project.mk "id1" "t" "d" 1 ProjectStatus.Active] [[0]])
        0 [0, 1]).projectsRef <
      (Store.mk (Mem.mk [Project.mk "id1" "t" "d" 1 ProjectStatus.Active] [[0]])
        0 [0, 1]).mem.arrs.length) ∧
    ((updateListeners (Store.mk
        (Mem.mk [Project.mk "id1" "t" "d" 1 ProjectStatus.Active] [[0]])
        0 [0, 1])).1.mem.getArr 0 =
      (Store.mk (Mem.mk [Project.mk "id1" "t" "d" 1 ProjectStatus.Active] [[0]])
        0 [0, 1]).mem.getArr 0) :=
  ⟨by decide,
   (updateListeners_snapshot_array_isolation
     (Store.mk (Mem.mk [Project.mk "id1" "t" "d" 1 ProjectStatus.Active] [[0]])
       0 [0, 1]) (by decide)).1⟩

end RefModel
